import Mathlib

set_option maxHeartbeats 1000000

namespace PRL

/-- Modelled from the spec: `generate-api/src/parser.rs` is not under `src/`.
Spec section 3 defines `Value` as a tagged union of `RawText(string)`,
`Text(string)` and `Integer(i64)`; `generator.rs` refers to the constructors
as `parser::Value::Raw`, `parser::Value::String`, `parser::Value::Integer`. -/
inductive Value where
  | Raw : String → Value
  | String : String → Value
  | Integer : Int → Value
deriving DecidableEq

/-- Modelled from the spec: `u8::from(&parser::Value)` lives in the missing
`parser.rs`; spec section 3 says the three alternatives are distinguishing
tags, so the conversion is modelled as the discriminant. -/
def tagOf : Value → Nat
  | .Raw _ => 0
  | .String _ => 1
  | .Integer _ => 2

/-- Modelled from the spec: `parser::Object` is a category name plus an
ordered, key-repeatable list of (key, values) entries (spec section 3), with
field names `name` and `values` as used throughout `generator.rs`. -/
structure Object where
  name : String
  values : List (String × List Value)
deriving DecidableEq

/-- The LocaleTable `HashMap<String, Vec<parser::Object>>`, modelled as an
association list whose order is the map's arbitrary iteration order; the
HashMap invariant is that the keys (locale names) are distinct. -/
abbrev Table := List (String × List Object)

/-- Models `HashMap::get`: the first entry with the given key, if any. -/
def lookupRaw (t : Table) (lang : String) : Option (List Object) :=
  (t.find? fun p => p.1 == lang).map fun p => p.2

/-- Models `str::replace` for a one-character pattern `p` with replacement
`r`, on the character list of the string (all occurrences, left to right). -/
def replaceChar (p : Char) (r : List Char) : List Char → List Char
  | [] => []
  | c :: cs => if c = p then r ++ replaceChar p r cs else c :: replaceChar p r cs

/-- Models `str::replace("..", "dotdot")`: leftmost, non-overlapping. -/
def replaceDots : List Char → List Char
  | [] => []
  | [c] => [c]
  | c :: d :: cs =>
    if c = '.' ∧ d = '.' then 'd' :: 'o' :: 't' :: 'd' :: 'o' :: 't' :: replaceDots cs
    else c :: replaceDots (d :: cs)

/-- ASCII upper-casing of one character, modelling `str::to_uppercase` on the
ASCII locale keys: `'a'..'z'` (code points 97 to 122) map down by 32 to
`'A'..'Z'`, everything else is unchanged. -/
def upperChar (c : Char) : Char :=
  if 97 ≤ c.toNat ∧ c.toNat ≤ 122 then Char.ofNat (c.toNat - 32) else c

/-- The identifier sanitizer of `generate_object` (generator.rs lines 20-28),
applied in source order: drop every apostrophe (code point 39) and double
quote (34), `-` to `_`, `=` to `eq`, `<` to `lt`, `..` to `dotdot`, `2` to
`two`, then upper-case the result. -/
def sanitize (k : String) : String :=
  ⟨(replaceChar '2' ['t', 'w', 'o']
    (replaceDots
      (replaceChar '<' ['l', 't']
        (replaceChar '=' ['e', 'q']
          (replaceChar '-' ['_']
            (replaceChar (Char.ofNat 34) []
              (replaceChar (Char.ofNat 39) [] k.data))))))).map upperChar⟩

/-- Locale-name normalization `lang.replace("@", "_")` (generator.rs lines
209 and 395). -/
def normalize (lang : String) : String :=
  ⟨replaceChar '@' ['_'] lang.data⟩

/-- Lexicographic order on character lists by code point, modelling `Ord` on
Rust strings (UTF-8 byte order coincides with code-point order). -/
def lexLe : List Char → List Char → Bool
  | [], _ => true
  | _ :: _, [] => false
  | a :: as, b :: bs =>
    if a.toNat < b.toNat then true
    else if b.toNat < a.toNat then false
    else lexLe as bs

/-- Strict lexicographic order on character lists by code point. -/
def lexLt : List Char → List Char → Bool
  | [], [] => false
  | [], _ :: _ => true
  | _ :: _, [] => false
  | a :: as, b :: bs =>
    if a.toNat < b.toNat then true
    else if b.toNat < a.toNat then false
    else lexLt as bs

/-- String comparison used by the generator's sorts. -/
def strLe (a b : String) : Bool := lexLe a.data b.data

/-- Strict string comparison ("lexicographically smaller"). -/
def strLt (a b : String) : Bool := lexLt a.data b.data

/-- Stable sort by a string key, modelling `itertools::sorted_by` and
`slice::sort_by` (both stable), and `sort_unstable_by_key` on distinct keys. -/
def sortByKey (key : α → String) (l : List α) : List α :=
  List.insertionSort (fun a b => strLe (key a) (key b) = true) l

/-- Models `Itertools::group_by` keyed by the raw key: consecutive entries
with equal keys are merged into one group (the entries were sorted by key
first, so equal keys are adjacent). -/
def groupByKey : List (String × List Value) → List (String × List (List Value))
  | [] => []
  | (k, v) :: rest =>
    match groupByKey rest with
    | [] => [(k, [v])]
    | (k2, vs) :: gs =>
      if k = k2 then (k, v :: vs) :: gs else (k, [v]) :: (k2, vs) :: gs

/-- The iterator pipeline of generator.rs lines 13-19: keep entries with a
non-empty value list, stably sort by raw key. -/
def entriesSorted (o : Object) : List (String × List Value) :=
  sortByKey Prod.fst (o.values.filter fun e => !e.2.isEmpty)

/-- The raw-key groups of one Object (generator.rs lines 13-19). -/
def groupsOf (o : Object) : List (String × List (List Value)) :=
  groupByKey (entriesSorted o)

/-- Models `Itertools::all_equal`: every element equals the first (true on an
empty sequence). -/
def allEqual : List Nat → Bool
  | [] => true
  | x :: xs => xs.all fun y => y == x

/-- One emitted constant for one key-group, carrying exactly the data
interpolated into the corresponding `write!` template of `generate_object`:
`constStr key x` is the `pub const KEY: &str = "x";` scalar with its doc
comment rendering the literal (lines 54-62, used for both `Raw` and `String`
singletons), `constInt` the `i64` scalar with its doc comment (lines 63-71),
`constVec` the flat `&[&str]` / `&[i64]` vector (lines 73-96, element type
chosen by the tag of the first value), and `constMat` the `&[&[..]]` matrix
(lines 97-163, one inner slice per original entry in entry order, preceded by
the nested doc-comment listing). -/
inductive Chunk where
  | constStr : String → String → Chunk
  | constInt : String → Int → Chunk
  | constVec : String → List Value → Chunk
  | constMat : String → List (List Value) → Chunk
deriving DecidableEq

/-- Sanitized key (constant name) of an emitted chunk. -/
def chunkKey : Chunk → String
  | .constStr k _ => k
  | .constInt k _ => k
  | .constVec k _ => k
  | .constMat k _ => k

/-- The scalar constant for a singleton group (generator.rs lines 50-72):
`Raw` and `String` payloads both become a string constant, `Integer` an
`i64` constant. -/
def scalarChunk (key : String) : Value → Chunk
  | .Raw x => .constStr key x
  | .String x => .constStr key x
  | .Integer n => .constInt key n

/-- The generator's panics, modelled as errors: `unknownLocale` (line 36),
`missingCopySource` (line 40), `invalidCopyValue` (line 43, also covering the
out-of-bounds `group[0][0]` accesses on line 32), `mixedTypes`
(`unimplemented!`, line 165), `copyAssertFailed` (`assert_eq!`, line 202),
`unexpectedCopyValue` (line 212), plus `outOfFuel`, an artifact of totalizing
the recursion of `generate_object` (reachable only through the `copy` branch,
which `sanitize_ne_copy` below proves dead). -/
inductive GenError where
  | unknownLocale
  | missingCopySource
  | invalidCopyValue
  | mixedTypes
  | copyAssertFailed
  | unexpectedCopyValue
  | outOfFuel
deriving DecidableEq

/-- The group loop of `generate_object` (generator.rs lines 13-170),
processing the sorted key-groups of one Object in order. `fuel` bounds the
recursion through `copy`/`include` groups (the Rust code recurses
unboundedly); one unit is spent per group so that the definition is
structural, and `genGroups_eq_pure` shows any fuel of at least the group
count yields the fuel-free semantics. `name` is `object.name`, used to find
the same-named Object of the referenced locale when copying. -/
def genGroups (locales : Table) : Nat → String → List (String × List (List Value)) →
    Except GenError (List Chunk)
  | _, _, [] => .ok []
  | 0, _, _ :: _ => .error .outOfFuel
  | fuel + 1, name, (rawKey, group) :: rest =>
    let key := sanitize rawKey
    if key = "copy" ∨ key = "include" then
      -- lines 31-46; dead: `key` was upper-cased on line 28, see `sanitize_ne_copy`
      match group with
      | (Value.String otherLang :: _) :: _ =>
        match lookupRaw locales otherLang with
        | none => .error .unknownLocale
        | some other =>
          match other.find? fun o => o.name == name with
          | none => .error .missingCopySource
          | some otherObject => do
            let inlined ← genGroups locales fuel otherObject.name (groupsOf otherObject)
            let restChunks ← genGroups locales fuel name rest
            .ok (inlined ++ restChunks)
      | _ => .error .invalidCopyValue
    else
      match group with
      | [[]] => .ok []          -- lines 48-49: early return, abandoning `rest`
      | [[v]] => do             -- lines 50-72: scalar constant
        let restChunks ← genGroups locales fuel name rest
        .ok (scalarChunk key v :: restChunks)
      | [vs] =>                 -- lines 73-96: flat vector
        if allEqual (vs.map tagOf) then do
          let restChunks ← genGroups locales fuel name rest
          .ok (.constVec key vs :: restChunks)
        else .error .mixedTypes -- line 97 flattens the same single row, so line 165 fires
      | vss =>                  -- lines 97-163: matrix
        if allEqual (vss.flatten.map tagOf) then do
          let restChunks ← genGroups locales fuel name rest
          .ok (.constMat key vss :: restChunks)
        else .error .mixedTypes -- lines 164-165: `unimplemented!("mixed types")`

/-- Fuel-free semantics of the group loop: because the comparison on line 31
can never succeed (the key was upper-cased, `sanitize_ne_copy`), the
recursion through other Objects is unreachable and the loop is a plain fold
over the groups. -/
def genGroupsPure : List (String × List (List Value)) → Except GenError (List Chunk)
  | [] => .ok []
  | (rawKey, group) :: rest =>
    let key := sanitize rawKey
    match group with
    | [[]] => .ok []
    | [[v]] => do
      let restChunks ← genGroupsPure rest
      .ok (scalarChunk key v :: restChunks)
    | [vs] =>
      if allEqual (vs.map tagOf) then do
        let restChunks ← genGroupsPure rest
        .ok (.constVec key vs :: restChunks)
      else .error .mixedTypes
    | vss =>
      if allEqual (vss.flatten.map tagOf) then do
        let restChunks ← genGroupsPure rest
        .ok (.constMat key vss :: restChunks)
      else .error .mixedTypes

/-- `generate_object` (generator.rs lines 8-170) on one Object: the group
count is enough fuel because the copy branch never fires. -/
def generateObject (o : Object) (locales : Table) : Except GenError (List Chunk) :=
  genGroups locales (groupsOf o).length o.name (groupsOf o)

/-- The category names the Locale/Object Emitter skips (generator.rs lines
190-196). -/
def excludedName (n : String) : Bool :=
  n == "LC_COLLATE" || n == "LC_CTYPE" || n == "LC_MEASUREMENT" ||
  n == "LC_PAPER" || n == "LC_NAME"

/-- One item inside a locale's `pub mod`: `useAlias target objName` is
`pub use super::{target}::{objName};` (generator.rs lines 204-211), and
`module objName content` is `pub mod {objName} { .. }` wrapping the Object's
chunks (lines 218-233). -/
inductive LocItem where
  | useAlias : String → String → LocItem
  | module : String → List Chunk → LocItem
deriving DecidableEq

/-- The Object name an item is declared under. -/
def itemName : LocItem → String
  | .useAlias _ n => n
  | .module n _ => n

/-- The Object loop of `generate_locale` (generator.rs lines 189-235), run on
the name-sorted Object list. -/
def genObjectsLoop (locales : Table) : List Object → Except GenError (List LocItem)
  | [] => .ok []
  | o :: rest =>
    if excludedName o.name then genObjectsLoop locales rest  -- lines 190-196
    else
      match o.values with
      | [(key, value)] =>                                    -- lines 197-216
        if key = "copy" then
          if value.length = 1 then                           -- assert_eq!, line 202
            match value with
            | [Value.String x] => do
              let restItems ← genObjectsLoop locales rest
              .ok (.useAlias (normalize x) o.name :: restItems)
            | _ => .error .unexpectedCopyValue               -- line 212
          else .error .copyAssertFailed
        else genObjectsLoop locales rest                     -- `_ => {}`, line 215
      | _ => do                                              -- lines 217-234
        let content ← generateObject o locales
        let restItems ← genObjectsLoop locales rest
        .ok (.module o.name content :: restItems)

/-- `generate_locale` (generator.rs lines 172-244) for one locale: the items
of its `pub mod`, with the Objects sorted by name first (line 189). -/
def genLocaleItems (objects : List Object) (locales : Table) :
    Except GenError (List LocItem) :=
  genObjectsLoop locales (sortByKey Object.name objects)

/-- Content of the module named `n` among a locale's emitted items, if any:
what the generated path `super::{locale}::{n}` of an alias refers to. -/
def moduleContentAt (items : List LocItem) (n : String) : Option (List Chunk) :=
  items.findSome? fun it =>
    match it with
    | .module m c => if m == n then some c else none
    | .useAlias _ _ => none

/-- The search for the first `title` entry (generator.rs lines 408-420): the
loop breaks at the first key `title`, whether or not its first value is a
string; a found title gets a trailing period when it lacks one. -/
def findTitle : List (String × List Value) → Option String
  | [] => none
  | (key, values) :: rest =>
    if key = "title" then
      match values.head? with
      | some (Value.String title) =>
        some (if title.data.getLast? = some '.' then title else title ++ ".")
      | _ => none
    else findTitle rest

/-- Locale description derivation (generator.rs lines 406-425). -/
def descOf (lang : String) (objects : List Object) : String :=
  match objects.find? fun o => o.name == "LC_IDENTIFICATION" with
  | some o =>
    match findTitle o.values with
    | some d => d
    | none => if lang = "POSIX" then "POSIX Standard Locale." else ""
  | none => if lang = "POSIX" then "POSIX Standard Locale." else ""

/-- The (locale name, normalized identifier, description) triples handed to
`generate_variants`, sorted by locale name (generator.rs lines 404-430). -/
def variantTriples (t : Table) : List (String × String × String) :=
  sortByKey Prod.fst (t.map fun p => (p.1, normalize p.1, descOf p.1 p.2))

/-- Semantics of the generated `TryFrom<&str> for Locale` (generator.rs lines
284-311): one `lang => Ok(Locale::{norm})` arm per triple, in order, ending
with `_ => Err(UnknownLocale)` (modelled by `none`); a variant is identified
by its constructor name, i.e. the normalized identifier. -/
def tryFromLocale (langs : List (String × String × String)) (s : String) :
    Option String :=
  (langs.find? fun p => p.1 == s).map fun p => p.2.1

/-- Semantics of the generated `Display for Locale` (generator.rs lines
313-337, shared by `Debug`, lines 339-343): the first arm
`Locale::{norm} => lang` whose constructor pattern matches the variant. -/
def renderLocale (langs : List (String × String × String)) (v : String) :
    Option String :=
  (langs.find? fun p => p.2.1 == v).map fun p => p.1

/-- The per-locale emission loop of `CodeGenerator::fmt` (generator.rs lines
398-402) over the name-sorted table: each locale contributes the pair
(normalized identifier, items of its `pub mod`). -/
def genLocales (t : Table) : List (String × List Object) →
    Except GenError (List (String × List LocItem))
  | [] => .ok []
  | (lang, objects) :: rest => do
    let items ← genLocaleItems objects t
    let restLocs ← genLocales t rest
    .ok ((normalize lang, items) :: restLocs)

/-- Whole-output structure of `CodeGenerator::fmt` (generator.rs lines
377-432): the locale namespaces in sorted name order, then the data driving
the enumeration pass (the sorted variant triples; the fixed preamble and the
`Locale` enum, `TryFrom`, `Display` and `locale_match!` templates are
constant functions of those triples). -/
def generateAll (t : Table) :
    Except GenError (List (String × List LocItem) × List (String × String × String)) := do
  let locs ← genLocales t (sortByKey Prod.fst t)
  .ok (locs, variantTriples t)

/-- Characters produced by `Char.ofNat` on valid code points keep their value. -/
theorem toNat_ofNat_valid (n : Nat) (h : n < 55296) : (Char.ofNat n).toNat = n := by
  have hv : Nat.isValidChar n := Or.inl h
  simp only [Char.ofNat, dif_pos hv]
  simp [Char.ofNatAux, Char.toNat, UInt32.toNat, UInt32.ofNatCore]

/-- Upper-casing never yields an ASCII lower-case character. -/
theorem upperChar_not_lower (c : Char) :
    ¬(97 ≤ (upperChar c).toNat ∧ (upperChar c).toNat ≤ 122) := by
  unfold upperChar
  split
  · next h => rw [toNat_ofNat_valid (c.toNat - 32) (by omega)]; omega
  · next h => exact h

/-- Upper-casing never yields a given ASCII lower-case character. -/
theorem upperChar_ne_of_lower (c t : Char) (h1 : 97 ≤ t.toNat) (h2 : t.toNat ≤ 122) :
    upperChar c ≠ t := by
  intro h
  exact upperChar_not_lower c (by rw [h]; exact ⟨h1, h2⟩)

/-- An upper-cased character list never starts with an ASCII lower-case
character. -/
theorem map_upperChar_ne_cons_lower (l : List Char) (t : Char) (w : List Char)
    (h1 : 97 ≤ t.toNat) (h2 : t.toNat ≤ 122) : l.map upperChar ≠ t :: w := by
  cases l with
  | nil => simp
  | cons c cs =>
    intro h
    exact upperChar_ne_of_lower c t h1 h2 (List.head_eq_of_cons_eq h)

/-- The comparison on generator.rs line 31 is dead code: it compares the
already upper-cased key with the lower-case literals, so a sanitized key is
never `"copy"` or `"include"`. -/
theorem sanitize_ne_copy (k : String) :
    ¬(sanitize k = "copy" ∨ sanitize k = "include") := by
  intro h
  cases h with
  | inl h =>
    have hd : (sanitize k).data = "copy".data := congrArg String.data h
    rw [show "copy".data = 'c' :: ['o', 'p', 'y'] from rfl] at hd
    exact map_upperChar_ne_cons_lower _ 'c' _ (by decide) (by decide) hd
  | inr h =>
    have hd : (sanitize k).data = "include".data := congrArg String.data h
    rw [show "include".data = 'i' :: ['n', 'c', 'l', 'u', 'd', 'e'] from rfl] at hd
    exact map_upperChar_ne_cons_lower _ 'i' _ (by decide) (by decide) hd

/-- With fuel at least the number of groups, the group loop agrees with its
fuel-free semantics: the copy branch (the only consumer of deep fuel) never
fires. -/
theorem genGroups_eq_pure (t : Table) :
    ∀ (gs : List (String × List (List Value))) (fuel : Nat) (name : String),
      gs.length ≤ fuel → genGroups t fuel name gs = genGroupsPure gs := by
  intro gs
  induction gs with
  | nil => intro fuel name _; cases fuel <;> rfl
  | cons g rest ih =>
    intro fuel name hlen
    obtain ⟨rawKey, group⟩ := g
    cases fuel with
    | zero => simp at hlen
    | succ f =>
      have hf : rest.length ≤ f := by simpa using hlen
      simp only [genGroups, genGroupsPure]
      rw [if_neg (sanitize_ne_copy rawKey), ih f name hf]

/-- `generateObject` computes the fuel-free semantics of `generate_object`. -/
theorem generateObject_eq_pure (o : Object) (t : Table) :
    generateObject o t = genGroupsPure (groupsOf o) :=
  genGroups_eq_pure t (groupsOf o) (groupsOf o).length o.name (Nat.le_refl _)

/-- Characters with equal code points are equal. -/
theorem charToNat_inj {a b : Char} (h : a.toNat = b.toNat) : a = b :=
  Char.eq_of_val_eq (UInt32.ext h)

/-- Reflexivity of the lexicographic order. -/
theorem lexLe_refl : ∀ a : List Char, lexLe a a = true := by
  intro a
  induction a with
  | nil => rfl
  | cons x xs ih =>
    simp only [lexLe, if_neg (Nat.lt_irrefl x.toNat)]
    exact ih

/-- Totality of the lexicographic order. -/
theorem lexLe_total : ∀ a b : List Char, lexLe a b = true ∨ lexLe b a = true := by
  intro a
  induction a with
  | nil => intro b; left; rfl
  | cons x xs ih =>
    intro b
    cases b with
    | nil => right; rfl
    | cons y ys =>
      simp only [lexLe]
      rcases Nat.lt_trichotomy x.toNat y.toNat with h | h | h
      · left; rw [if_pos h]
      · have h1 : ¬x.toNat < y.toNat := by omega
        have h2 : ¬y.toNat < x.toNat := by omega
        simp only [if_neg h1, if_neg h2]
        exact ih ys
      · right; rw [if_pos h]

/-- Transitivity of the lexicographic order. -/
theorem lexLe_trans : ∀ a b c : List Char,
    lexLe a b = true → lexLe b c = true → lexLe a c = true := by
  intro a
  induction a with
  | nil => intro b c _ _; rfl
  | cons x xs ih =>
    intro b c hab hbc
    cases b with
    | nil => simp [lexLe] at hab
    | cons y ys =>
      cases c with
      | nil => simp [lexLe] at hbc
      | cons z zs =>
        simp only [lexLe] at hab hbc ⊢
        rcases Nat.lt_trichotomy x.toNat y.toNat with h1 | h1 | h1
        · rcases Nat.lt_trichotomy y.toNat z.toNat with h2 | h2 | h2
          · rw [if_pos (by omega : x.toNat < z.toNat)]
          · rw [if_pos (by omega : x.toNat < z.toNat)]
          · rw [if_neg (by omega : ¬y.toNat < z.toNat), if_pos h2] at hbc
            exact absurd hbc (by simp)
        · rw [if_neg (by omega : ¬x.toNat < y.toNat),
              if_neg (by omega : ¬y.toNat < x.toNat)] at hab
          rcases Nat.lt_trichotomy y.toNat z.toNat with h2 | h2 | h2
          · rw [if_pos (by omega : x.toNat < z.toNat)]
          · rw [if_neg (by omega : ¬y.toNat < z.toNat),
                if_neg (by omega : ¬z.toNat < y.toNat)] at hbc
            rw [if_neg (by omega : ¬x.toNat < z.toNat),
                if_neg (by omega : ¬z.toNat < x.toNat)]
            exact ih ys zs hab hbc
          · rw [if_neg (by omega : ¬y.toNat < z.toNat), if_pos h2] at hbc
            exact absurd hbc (by simp)
        · rw [if_neg (by omega : ¬x.toNat < y.toNat), if_pos h1] at hab
          exact absurd hab (by simp)

/-- Antisymmetry of the lexicographic order. -/
theorem lexLe_antisymm : ∀ a b : List Char,
    lexLe a b = true → lexLe b a = true → a = b := by
  intro a
  induction a with
  | nil =>
    intro b _ hba
    cases b with
    | nil => rfl
    | cons y ys => simp [lexLe] at hba
  | cons x xs ih =>
    intro b hab hba
    cases b with
    | nil => simp [lexLe] at hab
    | cons y ys =>
      simp only [lexLe] at hab hba
      rcases Nat.lt_trichotomy x.toNat y.toNat with h | h | h
      · rw [if_neg (by omega : ¬y.toNat < x.toNat), if_pos h] at hba
        exact absurd hba (by simp)
      · rw [if_neg (by omega : ¬x.toNat < y.toNat),
            if_neg (by omega : ¬y.toNat < x.toNat)] at hab
        rw [if_neg (by omega : ¬y.toNat < x.toNat),
            if_neg (by omega : ¬x.toNat < y.toNat)] at hba
        rw [charToNat_inj h, ih ys hab hba]
      · rw [if_neg (by omega : ¬x.toNat < y.toNat), if_pos h] at hab
        exact absurd hab (by simp)

/-- The strict order is the non-strict order minus equality. -/
theorem lexLt_iff : ∀ a b : List Char,
    lexLt a b = true ↔ (lexLe a b = true ∧ ¬lexLe b a = true) := by
  intro a
  induction a with
  | nil =>
    intro b
    cases b with
    | nil => simp [lexLt, lexLe]
    | cons y ys => simp [lexLt, lexLe]
  | cons x xs ih =>
    intro b
    cases b with
    | nil => simp [lexLt, lexLe]
    | cons y ys =>
      simp only [lexLt, lexLe]
      rcases Nat.lt_trichotomy x.toNat y.toNat with h | h | h
      · rw [if_pos h, if_pos h, if_neg (by omega : ¬y.toNat < x.toNat), if_pos h]
        simp
      · have h1 : ¬x.toNat < y.toNat := by omega
        have h2 : ¬y.toNat < x.toNat := by omega
        simp only [if_neg h1, if_neg h2]
        exact ih ys
      · rw [if_neg (by omega : ¬x.toNat < y.toNat), if_pos h,
            if_neg (by omega : ¬x.toNat < y.toNat), if_pos h]
        simp

/-- Strictness from order plus inequality. -/
theorem lexLt_of_le_of_ne {a b : List Char} (hle : lexLe a b = true) (hne : a ≠ b) :
    lexLt a b = true := by
  rw [lexLt_iff]
  refine ⟨hle, fun hba => hne (lexLe_antisymm a b hle hba)⟩

/-- Asymmetry of the strict lexicographic order. -/
theorem lexLt_asymm {a b : List Char} (h1 : lexLt a b = true) (h2 : lexLt b a = true) :
    False := by
  rw [lexLt_iff] at h1 h2
  exact h1.2 h2.1

/-- Transitivity of the strict lexicographic order. -/
theorem lexLt_trans {a b c : List Char} (h1 : lexLt a b = true) (h2 : lexLt b c = true) :
    lexLt a c = true := by
  rw [lexLt_iff] at h1 h2 ⊢
  refine ⟨lexLe_trans a b c h1.1 h2.1, fun hca => h2.2 (lexLe_trans c a b hca h1.1)⟩

/-- Equal strings have equal data. -/
theorem strEq_of_data_eq {a b : String} (h : a.data = b.data) : a = b := by
  cases a; cases b; congr 1

/-- The stable sort permutes its input. -/
theorem sortByKey_perm {α : Type} (key : α → String) (l : List α) :
    (sortByKey key l).Perm l :=
  List.perm_insertionSort _ l

/-- The stable sort sorts by the key. -/
theorem sortByKey_sorted {α : Type} (key : α → String) (l : List α) :
    (sortByKey key l).Pairwise fun a b => strLe (key a) (key b) = true := by
  haveI : IsTotal α fun a b => strLe (key a) (key b) = true :=
    ⟨fun a b => lexLe_total (key a).data (key b).data⟩
  haveI : IsTrans α fun a b => strLe (key a) (key b) = true :=
    ⟨fun a b c => lexLe_trans (key a).data (key b).data (key c).data⟩
  exact List.sorted_insertionSort _ l

/-- Sorting two permuted lists with duplicate-free keys gives the same list:
this is why `sort_unstable_by_key` over a `HashMap`'s iteration order is
deterministic. -/
theorem sortByKey_eq_of_perm {α : Type} (key : α → String) {l1 l2 : List α}
    (hp : l1.Perm l2) (hnd : (l1.map key).Nodup) :
    sortByKey key l1 = sortByKey key l2 := by
  haveI : IsAntisymm α fun a b => strLt (key a) (key b) = true :=
    ⟨fun a b h1 h2 => absurd (lexLt_asymm h1 h2) not_false⟩
  have hperm : (sortByKey key l1).Perm (sortByKey key l2) :=
    ((sortByKey_perm key l1).trans hp).trans (sortByKey_perm key l2).symm
  have strict : ∀ (l : List α), (l.map key).Nodup →
      (sortByKey key l).Pairwise fun a b => strLt (key a) (key b) = true := by
    intro l hl
    have hnds : ((sortByKey key l).map key).Nodup :=
      (((sortByKey_perm key l).map key).nodup_iff).mpr hl
    have hne : (sortByKey key l).Pairwise fun a b => key a ≠ key b :=
      List.pairwise_map.mp hnds
    exact ((sortByKey_sorted key l).and hne).imp fun ⟨hle, hne'⟩ =>
      lexLt_of_le_of_ne hle fun hdata => hne' (strEq_of_data_eq hdata)
  exact List.eq_of_perm_of_sorted hperm
    (strict l1 hnd) (strict l2 ((hp.map key).nodup_iff.mp hnd))

/-- Strict string order from order plus inequality. -/
theorem strLt_of_le_of_ne {a b : String} (hle : strLe a b = true) (hne : a ≠ b) :
    strLt a b = true :=
  lexLt_of_le_of_ne hle fun h => hne (strEq_of_data_eq h)

/-- Transitivity of the strict string order. -/
theorem strLt_trans {a b c : String} (h1 : strLt a b = true) (h2 : strLt b c = true) :
    strLt a c = true :=
  lexLt_trans h1 h2

/-- Grouping never turns a non-empty entry list into no groups. -/
theorem groupByKey_ne_nil (e : String × List Value) (l : List (String × List Value)) :
    groupByKey (e :: l) ≠ [] := by
  obtain ⟨k, v⟩ := e
  simp only [groupByKey]
  split
  · simp
  · split <;> simp

/-- The first group carries the first entry's key. -/
theorem groupByKey_keys_head : ∀ l : List (String × List Value),
    ((groupByKey l).map Prod.fst).head? = (l.map Prod.fst).head? := by
  intro l
  cases l with
  | nil => rfl
  | cons e rest =>
    obtain ⟨k, v⟩ := e
    simp only [groupByKey]
    cases hr : groupByKey rest with
    | nil => simp
    | cons g gs =>
      obtain ⟨k2, vs⟩ := g
      by_cases hk : k = k2 <;> simp [hk]

/-- Grouping entries sorted by key yields strictly increasing group keys. -/
theorem groupByKey_keys_lt : ∀ l : List (String × List Value),
    (l.Pairwise fun a b => strLe a.1 b.1 = true) →
    ((groupByKey l).map Prod.fst).Pairwise fun a b => strLt a b = true := by
  intro l
  induction l with
  | nil => intro _; simp [groupByKey]
  | cons e rest ih =>
    intro hp
    obtain ⟨k, v⟩ := e
    rw [List.pairwise_cons] at hp
    obtain ⟨hk, hrest⟩ := hp
    have ihk := ih hrest
    simp only [groupByKey]
    cases hr : groupByKey rest with
    | nil => simp
    | cons g gs =>
      obtain ⟨k2, vs⟩ := g
      rw [hr] at ihk
      have hk2 : (rest.map Prod.fst).head? = some k2 := by
        rw [← groupByKey_keys_head, hr]; rfl
      obtain ⟨e2, rest2, hrest2⟩ : ∃ e2 rest2, rest = e2 :: rest2 := by
        cases rest with
        | nil => simp [groupByKey] at hr
        | cons a b => exact ⟨a, b, rfl⟩
      have hke2 : e2.1 = k2 := by
        rw [hrest2] at hk2; simpa using hk2
      have hlek2 : strLe k k2 = true := by
        rw [← hke2]; exact hk e2 (hrest2 ▸ List.mem_cons_self e2 rest2)
      by_cases hkk : k = k2
      · simp only [if_pos hkk, List.map_cons]
        subst hkk
        simpa using ihk
      · simp only [if_neg hkk, List.map_cons]
        rw [List.pairwise_cons]
        refine ⟨?_, ihk⟩
        intro b hb
        rcases List.mem_cons.mp hb with hb | hb
        · subst hb; exact strLt_of_le_of_ne hlek2 hkk
        · simp only [List.map_cons] at ihk
          rw [List.pairwise_cons] at ihk
          exact strLt_trans (strLt_of_le_of_ne hlek2 hkk) (ihk.1 b hb)

/-- Flattening the groups restores the sorted entry list: grouping neither
loses nor reorders entries. -/
theorem groupByKey_flatMap : ∀ l : List (String × List Value),
    (groupByKey l).flatMap (fun g => g.2.map fun v => (g.1, v)) = l := by
  intro l
  induction l with
  | nil => rfl
  | cons e rest ih =>
    obtain ⟨k, v⟩ := e
    simp only [groupByKey]
    cases hr : groupByKey rest with
    | nil =>
      have hrest : rest = [] := by
        cases rest with
        | nil => rfl
        | cons a b => exact absurd hr (groupByKey_ne_nil a b)
      simp [hrest]
    | cons g gs =>
      obtain ⟨k2, vs⟩ := g
      rw [hr] at ih
      by_cases hkk : k = k2
      · subst hkk
        simp only [if_pos rfl, List.flatMap_cons, List.map_cons] at ih ⊢
        simpa using ih
      · simp only [if_neg hkk, List.flatMap_cons, List.map_cons] at ih ⊢
        simpa using ih

/-- Every value list in a group was an entry with that group's key. -/
theorem mem_of_group_mem {l : List (String × List Value)}
    {g : String × List (List Value)} (hg : g ∈ groupByKey l) {vs : List Value}
    (hvs : vs ∈ g.2) : (g.1, vs) ∈ l := by
  rw [← groupByKey_flatMap l]
  exact List.mem_flatMap.mpr ⟨g, hg, List.mem_map.mpr ⟨vs, hvs, rfl⟩⟩

/-- Groups of an Object never contain an empty value list: the filter on
generator.rs line 16 removed those entries before grouping, which is what
makes the early return on lines 48-49 unreachable. -/
theorem groupsOf_no_empty (o : Object) :
    ∀ g ∈ groupsOf o, ∀ vs ∈ g.2, vs ≠ [] := by
  intro g hg vs hvs
  have hmem : (g.1, vs) ∈ entriesSorted o := mem_of_group_mem hg hvs
  have hfil : (g.1, vs) ∈ o.values.filter fun e => !e.2.isEmpty :=
    (sortByKey_perm Prod.fst _).subset hmem
  have hp := List.of_mem_filter hfil
  simp only [Bool.not_eq_true'] at hp
  simpa [List.isEmpty_iff] using hp

/-- The keys of an Object's groups are strictly increasing in raw-key order. -/
theorem groupsOf_keys_lt (o : Object) :
    ((groupsOf o).map Prod.fst).Pairwise fun a b => strLt a b = true :=
  groupByKey_keys_lt _ (sortByKey_sorted Prod.fst _)

/-- Inversion for a successful `Except` bind. -/
theorem bind_ok_inv {ε α β : Type} {m : Except ε α} {f : α → Except ε β} {b : β}
    (h : (m >>= f) = .ok b) : ∃ a, m = .ok a ∧ f a = .ok b := by
  cases m with
  | error e => exact absurd h (by simp [Bind.bind, Except.bind])
  | ok a => exact ⟨a, rfl, by simpa [Bind.bind, Except.bind] using h⟩

/-- The key of a scalar chunk. -/
theorem chunkKey_scalarChunk (k : String) (v : Value) :
    chunkKey (scalarChunk k v) = k := by
  cases v <;> rfl

/-- On groups without empty value lists, a successful run emits exactly one
constant per group, named by the sanitized group key, in group order. -/
theorem genGroupsPure_keys : ∀ (gs : List (String × List (List Value))) (cs : List Chunk),
    (∀ g ∈ gs, ∀ vs ∈ g.2, vs ≠ []) → genGroupsPure gs = .ok cs →
    cs.map chunkKey = gs.map fun g => sanitize g.1 := by
  intro gs
  induction gs with
  | nil =>
    intro cs _ h
    simp only [genGroupsPure] at h
    cases h
    rfl
  | cons g rest ih =>
    intro cs hne h
    obtain ⟨rawKey, group⟩ := g
    have hner : ∀ g ∈ rest, ∀ vs ∈ g.2, vs ≠ [] :=
      fun g hg => hne g (List.mem_cons_of_mem _ hg)
    match group with
    | [[]] =>
      exact absurd rfl (hne (rawKey, [[]]) (List.mem_cons_self _ _) [] (by simp))
    | [[v]] =>
      simp only [genGroupsPure] at h
      obtain ⟨cs2, hok, hf⟩ := bind_ok_inv h
      cases hf
      simp [chunkKey_scalarChunk, ih cs2 hner hok]
    | [v1 :: v2 :: vtail] =>
      simp only [genGroupsPure] at h
      split at h
      · obtain ⟨cs2, hok, hf⟩ := bind_ok_inv h
        cases hf
        simp [chunkKey, ih cs2 hner hok]
      · exact absurd h (by simp)
    | [] =>
      simp only [genGroupsPure] at h
      split at h
      · obtain ⟨cs2, hok, hf⟩ := bind_ok_inv h
        cases hf
        simp [chunkKey, ih cs2 hner hok]
      · exact absurd h (by simp)
    | g1 :: g2 :: gtail =>
      simp only [genGroupsPure] at h
      split at h
      · obtain ⟨cs2, hok, hf⟩ := bind_ok_inv h
        cases hf
        simp [chunkKey, ih cs2 hner hok]
      · exact absurd h (by simp)

/-- If any group of a well-formed group list mixes value tags, the run fails
with the mixed-types error. -/
theorem genGroupsPure_error_of_mixed :
    ∀ (gs : List (String × List (List Value))),
      (∀ g ∈ gs, ∀ vs ∈ g.2, vs ≠ []) →
      ∀ g ∈ gs, allEqual (g.2.flatten.map tagOf) = false →
      genGroupsPure gs = .error .mixedTypes := by
  intro gs
  induction gs with
  | nil => intro _ g hg; simp at hg
  | cons e rest ih =>
    intro hne g hg hmix
    obtain ⟨rawKey, group⟩ := e
    have hner : ∀ g ∈ rest, ∀ vs ∈ g.2, vs ≠ [] :=
      fun g hg => hne g (List.mem_cons_of_mem _ hg)
    rcases List.mem_cons.mp hg with hghead | hgtail
    · subst hghead
      match hgr : group with
      | [[]] =>
        exact absurd rfl (hne (rawKey, [[]]) (List.mem_cons_self _ _) [] (by simp))
      | [[v]] => simp [allEqual] at hmix
      | [v1 :: v2 :: vtail] =>
        simp only [genGroupsPure]
        have hm : allEqual (List.map tagOf (v1 :: v2 :: vtail)) = false := by
          simpa using hmix
        rw [if_neg (by simpa using hm)]
      | [] => simp [allEqual] at hmix
      | g1 :: g2 :: gtail =>
        simp only [genGroupsPure]
        have hm : allEqual (List.map tagOf (g1 :: g2 :: gtail).flatten) = false := hmix
        rw [if_neg (by simpa using hm)]
    · have hrest : genGroupsPure rest = .error .mixedTypes := ih hner g hgtail hmix
      match group with
      | [[]] =>
        exact absurd rfl (hne (rawKey, [[]]) (List.mem_cons_self _ _) [] (by simp))
      | [[v]] =>
        simp only [genGroupsPure]
        rw [hrest]
        rfl
      | [v1 :: v2 :: vtail] =>
        simp only [genGroupsPure]
        split
        · rw [hrest]; rfl
        · rfl
      | [] =>
        simp only [genGroupsPure]
        split
        · rw [hrest]; rfl
        · rfl
      | g1 :: g2 :: gtail =>
        simp only [genGroupsPure]
        split
        · rw [hrest]; rfl
        · rfl

/-- C1, amended. For a one-entry, one-value Object the Object-generation
procedure `generate_object` emits exactly one scalar constant whose key is
the sanitized key and whose payload and type are the value's (string-like
values a string constant, `Integer` values an `i64` constant, each preceded
by the doc comment rendering the literal, per the `Chunk` templates); but the
locale emitter `generate_locale` drops a single-entry Object whose key is not
`copy` entirely, emitting neither a namespace nor a constant for it. -/
theorem claim1_single_scalar (name k : String) (v : Value) (t : Table)
    (hk : k ≠ "copy") :
    generateObject ⟨name, [(k, [v])]⟩ t = .ok [scalarChunk (sanitize k) v] ∧
    genLocaleItems [⟨name, [(k, [v])]⟩] t = .ok [] := by
  constructor
  · rw [generateObject_eq_pure (o := ⟨name, [(k, [v])]⟩)]
    rfl
  · show genObjectsLoop t [⟨name, [(k, [v])]⟩] = .ok []
    simp only [genObjectsLoop, if_neg hk]
    split <;> rfl

/-- C1 witness: a concrete one-entry Object. -/
theorem claim1_witness :
    generateObject ⟨"LC_ADDRESS", [("lang_ab", [Value.String "en"])]⟩ []
        = .ok [scalarChunk (sanitize "lang_ab") (Value.String "en")] ∧
    genLocaleItems [⟨"LC_ADDRESS", [("lang_ab", [Value.String "en"])]⟩] [] = .ok [] :=
  claim1_single_scalar "LC_ADDRESS" "lang_ab" (Value.String "en") [] (by decide)

/-- C1 counterexample: for this Object with exactly one entry holding exactly
one value, the emitted output of `generate_locale` contains no constant at
all (the claim demands exactly one scalar constant); `generate_object` alone
would have produced it. -/
theorem claim1_counterexample :
    genLocaleItems [⟨"LC_ADDRESS", [("day", [Value.String "Mon"])]⟩] [] = .ok [] ∧
    generateObject ⟨"LC_ADDRESS", [("day", [Value.String "Mon"])]⟩ []
      = .ok [Chunk.constStr "DAY" "Mon"] :=
  ⟨rfl, rfl⟩

/-- C2: at the failing input, the `copy` key-group of a multi-entry Object is
shape-inferred into an ordinary string constant named `COPY` instead of being
resolved through the locale table: the comparison on generator.rs line 31
tests the already upper-cased key against the lower-case literals (see
`sanitize_ne_copy`), so the inheritance branch of `generate_object` is
unreachable, even though the referenced locale and same-named Object exist in
the table. -/
theorem claim2_copy_shape_inferred :
    generateObject
        ⟨"LC_TIME", [("copy", [Value.String "de"]), ("week", [Value.Integer 7])]⟩
        [("de", [⟨"LC_TIME", [("day", [Value.String "Mon"]), ("day", [Value.String "Tue"])]⟩])]
      = .ok [Chunk.constStr "COPY" "de", Chunk.constInt "WEEK" 7] := rfl

/-- C3, amended. Entries with an empty value list are removed by the filter on
generator.rs line 16 before grouping, so generating an Object is the same as
generating the Object with those entries dropped: an empty-valued entry is
skipped on its own, and the keys sorted after it are still emitted. The
whole-Object early return on lines 48-49 is unreachable
(`groupsOf_no_empty`). -/
theorem claim3_empty_entry_skipped (name : String)
    (vs : List (String × List Value)) (t : Table) :
    generateObject ⟨name, vs⟩ t =
      generateObject ⟨name, vs.filter fun e => !e.2.isEmpty⟩ t := by
  simp only [generateObject, groupsOf, entriesSorted, List.filter_filter]
  have hpp : (fun (e : String × List Value) => !e.2.isEmpty && !e.2.isEmpty)
      = fun (e : String × List Value) => !e.2.isEmpty := by
    funext e; exact Bool.and_self _
  rw [hpp]

/-- C3 counterexample: this Object has a key-group (`aaa`) whose single entry
has an empty value list; the claim says generation of the entire remaining
Object is aborted there, yet the constant for the later-sorted key `bbb` is
emitted. -/
theorem claim3_counterexample :
    generateObject ⟨"LC_TIME", [("aaa", []), ("bbb", [Value.String "x"])]⟩ []
      = .ok [Chunk.constStr "BBB" "x"] := rfl

/-- C4, amended. Inside one Object, entries are grouped by their raw key (not
the sanitized key), and groups are emitted in ascending raw-key order: on a
successful run the emitted constants are exactly the sanitized group keys in
group order, the raw group keys are strictly increasing, and flattening the
groups restores the filtered, key-sorted entry list. -/
theorem claim4_raw_key_grouping (o : Object) (t : Table) (cs : List Chunk)
    (h : generateObject o t = .ok cs) :
    cs.map chunkKey = (groupsOf o).map (fun g => sanitize g.1) ∧
    ((groupsOf o).map Prod.fst).Pairwise (fun a b => strLt a b = true) ∧
    (groupsOf o).flatMap (fun g => g.2.map fun v => (g.1, v)) = entriesSorted o := by
  refine ⟨?_, groupsOf_keys_lt o, groupByKey_flatMap _⟩
  rw [generateObject_eq_pure] at h
  exact genGroupsPure_keys _ cs (groupsOf_no_empty o) h

/-- C4 witness: a concrete two-group Object. -/
theorem claim4_witness :
    ([Chunk.constStr "AB" "s", Chunk.constInt "X_Y" 1].map chunkKey
        = (groupsOf ⟨"LC_TIME", [("x_y", [Value.Integer 1]), ("ab", [Value.String "s"])]⟩).map
            (fun g => sanitize g.1)) ∧
    (((groupsOf ⟨"LC_TIME", [("x_y", [Value.Integer 1]), ("ab", [Value.String "s"])]⟩).map
        Prod.fst).Pairwise (fun a b => strLt a b = true)) ∧
    ((groupsOf ⟨"LC_TIME", [("x_y", [Value.Integer 1]), ("ab", [Value.String "s"])]⟩).flatMap
        (fun g => g.2.map fun v => (g.1, v))
      = entriesSorted ⟨"LC_TIME", [("x_y", [Value.Integer 1]), ("ab", [Value.String "s"])]⟩) :=
  claim4_raw_key_grouping
    ⟨"LC_TIME", [("x_y", [Value.Integer 1]), ("ab", [Value.String "s"])]⟩ []
    [Chunk.constStr "AB" "s", Chunk.constInt "X_Y" 1] rfl

/-- C4 counterexample: with raw keys `a-b` and `aa`, the group sanitized to
`A_B` is emitted first although its sanitized key is lexicographically larger
than `AA`: ordering follows the raw keys, not the sanitized ones. -/
theorem claim4_counterexample :
    generateObject ⟨"LC_TIME", [("a-b", [Value.String "x"]), ("aa", [Value.String "y"])]⟩ []
      = .ok [Chunk.constStr "A_B" "x", Chunk.constStr "AA" "y"] ∧
    strLt "AA" "A_B" = true :=
  ⟨rfl, rfl⟩

/-- C7: a key-group whose values do not all share one tag makes the whole
Object generation fail with the mixed-types error (`unimplemented!` on
generator.rs line 165); no constant is emitted for such a group. -/
theorem claim7_mixed_tags_fail (o : Object) (t : Table)
    (g : String × List (List Value)) (hg : g ∈ groupsOf o)
    (hmix : allEqual (g.2.flatten.map tagOf) = false) :
    generateObject o t = .error .mixedTypes := by
  rw [generateObject_eq_pure]
  exact genGroupsPure_error_of_mixed _ (groupsOf_no_empty o) g hg hmix

/-- C7 witness: a group mixing a string and an integer value. -/
theorem claim7_witness :
    generateObject ⟨"LC_TIME", [("k", [Value.String "a", Value.Integer 1])]⟩ []
      = .error .mixedTypes :=
  claim7_mixed_tags_fail ⟨"LC_TIME", [("k", [Value.String "a", Value.Integer 1])]⟩ []
    ("k", [[Value.String "a", Value.Integer 1]]) (by decide) (by decide)

/-- Items produced by the Object loop never carry an excluded category name. -/
theorem genObjectsLoop_not_excluded (t : Table) :
    ∀ (objs : List Object) (items : List LocItem),
      genObjectsLoop t objs = .ok items →
      ∀ it ∈ items, excludedName (itemName it) = false := by
  intro objs
  induction objs with
  | nil =>
    intro items h it hit
    simp only [genObjectsLoop] at h
    cases h
    simp at hit
  | cons o rest ih =>
    intro items h it hit
    have hne : ∀ (he : ¬excludedName o.name = true), excludedName o.name = false :=
      fun he => Bool.not_eq_true _ ▸ he
    simp only [genObjectsLoop] at h
    by_cases he : excludedName o.name = true
    · rw [if_pos he] at h
      exact ih items h it hit
    · rw [if_neg he] at h
      split at h
      · -- o.values = [(key, value)]
        split at h
        · -- key = "copy"
          split at h
          · -- value.length = 1
            split at h
            · -- value = [Value.String x]
              obtain ⟨restItems, hok, hf⟩ := bind_ok_inv h
              cases hf
              rcases List.mem_cons.mp hit with hh | ht
              · subst hh; exact hne he
              · exact ih restItems hok it ht
            · exact absurd h (by simp)
          · exact absurd h (by simp)
        · -- key relative to "copy": other keys are dropped
          exact ih items h it hit
      · -- multi-entry Object: a module is emitted
        obtain ⟨content, hok1, h1⟩ := bind_ok_inv h
        obtain ⟨restItems, hok2, hf⟩ := bind_ok_inv h1
        cases hf
        rcases List.mem_cons.mp hit with hh | ht
        · subst hh; exact hne he
        · exact ih restItems hok2 it ht

/-- C8: every item a locale emits (alias or namespace, hence every constant)
carries a non-excluded category name, even when excluded Objects are present
in the input. -/
theorem claim8_excluded_never_emitted (objects : List Object) (t : Table)
    (items : List LocItem) (h : genLocaleItems objects t = .ok items) :
    ∀ it ∈ items, excludedName (itemName it) = false :=
  genObjectsLoop_not_excluded t _ items h

/-- C8 witness: a table with an LC_PAPER Object present; only LC_TIME is
emitted. -/
theorem claim8_witness :
    excludedName (itemName
      (LocItem.module "LC_TIME" [Chunk.constStr "X" "s", Chunk.constStr "Y" "u"])) = false :=
  claim8_excluded_never_emitted
    [⟨"LC_PAPER", [("a", [Value.Integer 1]), ("b", [Value.Integer 2])]⟩,
     ⟨"LC_TIME", [("x", [Value.String "s"]), ("y", [Value.String "u"])]⟩] []
    [LocItem.module "LC_TIME" [Chunk.constStr "X" "s", Chunk.constStr "Y" "u"]] rfl
    (LocItem.module "LC_TIME" [Chunk.constStr "X" "s", Chunk.constStr "Y" "u"])
    (List.mem_cons_self _ _)

/-- Modelled from the spec, section 4.1 (for comparison with the code's
sanitizer): apply in order — drop all apostrophes (39) and double quotes
(34); replace `-` with `_`; replace `=` with `eq`; replace `<` with `lt`;
replace the two-character sequence `..` with `dotdot`; replace the digit `2`
with `two`; upper-case the result. -/
def sanitizeSpec (k : String) : String :=
  ⟨(replaceChar '2' ['t', 'w', 'o']
    (replaceDots
      (replaceChar '<' ['l', 't']
        (replaceChar '=' ['e', 'q']
          (replaceChar '-' ['_']
            (replaceChar (Char.ofNat 34) []
              (replaceChar (Char.ofNat 39) [] k.data))))))).map upperChar⟩

/-- C9: the identifier sanitizer of `generate_object` is exactly the spec's
pipeline, applied in the spec's order; it is deterministic, pure and total by
construction (a total Lean function of the key alone). -/
theorem claim9_sanitizer_matches_spec : ∀ k : String, sanitize k = sanitizeSpec k :=
  fun _ => rfl

/-- The locale names of the variant triples are the table's locale names, up
to order. -/
theorem variantTriples_langs_perm (t : Table) :
    ((variantTriples t).map Prod.fst).Perm (t.map Prod.fst) := by
  have h1 : (variantTriples t).Perm
      (t.map fun p => (p.1, normalize p.1, descOf p.1 p.2)) :=
    sortByKey_perm Prod.fst _
  have h2 := h1.map Prod.fst
  rw [List.map_map] at h2
  have h3 : t.map (Prod.fst ∘ fun p => (p.1, normalize p.1, descOf p.1 p.2))
      = t.map Prod.fst :=
    List.map_congr_left fun p _ => rfl
  exact h3 ▸ h2

/-- C6: for every locale name in the table, the generated string-to-variant
conversion (`TryFrom`) yields its variant and the generated rendering
(`Display`/`Debug`) maps that variant back to exactly that name, provided the
normalized identifiers are pairwise distinct (the spec's stated data-model
invariant; a collision would not even compile as an enum); and every string
that is not a locale name of the table fails the conversion with
`UnknownLocale` (modelled by `none`). -/
theorem claim6_roundtrip (t : Table)
    (hninj : ((variantTriples t).map fun p => p.2.1).Nodup) :
    (∀ lang ∈ t.map Prod.fst,
        ∃ v, tryFromLocale (variantTriples t) lang = some v ∧
          renderLocale (variantTriples t) v = some lang) ∧
    (∀ s, s ∉ t.map Prod.fst → tryFromLocale (variantTriples t) s = none) := by
  constructor
  · intro lang hlang
    have hmem : lang ∈ (variantTriples t).map Prod.fst :=
      ((variantTriples_langs_perm t).mem_iff).mpr hlang
    obtain ⟨p, hp, hp1⟩ := List.mem_map.mp hmem
    have hsome : ((variantTriples t).find? fun q => q.1 == lang).isSome :=
      List.find?_isSome.mpr ⟨p, hp, by simp [hp1]⟩
    obtain ⟨q, hq⟩ := Option.isSome_iff_exists.mp hsome
    have hq1 : q.1 = lang := by simpa using List.find?_some hq
    have hqmem : q ∈ variantTriples t := List.mem_of_find?_eq_some hq
    refine ⟨q.2.1, by simp [tryFromLocale, hq], ?_⟩
    have hsome2 : ((variantTriples t).find? fun r => r.2.1 == q.2.1).isSome :=
      List.find?_isSome.mpr ⟨q, hqmem, by simp⟩
    obtain ⟨r, hr⟩ := Option.isSome_iff_exists.mp hsome2
    have hr1 : r.2.1 = q.2.1 := by simpa using List.find?_some hr
    have hrmem : r ∈ variantTriples t := List.mem_of_find?_eq_some hr
    have hrq : r = q := List.inj_on_of_nodup_map hninj hrmem hqmem hr1
    simp [renderLocale, hr, hrq, hq1]
  · intro s hs
    cases hf : (variantTriples t).find? fun q => q.1 == s with
    | none => simp [tryFromLocale, hf]
    | some q =>
      have hq1 : q.1 = s := by simpa using List.find?_some hf
      have hqmem : q ∈ variantTriples t := List.mem_of_find?_eq_some hf
      have : s ∈ t.map Prod.fst := by
        rw [← (variantTriples_langs_perm t).mem_iff]
        exact List.mem_map.mpr ⟨q, hqmem, hq1⟩
      exact absurd this hs

/-- C6 witness: a two-locale table, one name containing a modifier. -/
theorem claim6_witness :
    (∀ lang ∈ ([("aa_ER@saaho", []), ("POSIX", [])] : Table).map Prod.fst,
        ∃ v, tryFromLocale (variantTriples [("aa_ER@saaho", []), ("POSIX", [])]) lang = some v ∧
          renderLocale (variantTriples [("aa_ER@saaho", []), ("POSIX", [])]) v = some lang) ∧
    (∀ s, s ∉ ([("aa_ER@saaho", []), ("POSIX", [])] : Table).map Prod.fst →
        tryFromLocale (variantTriples [("aa_ER@saaho", []), ("POSIX", [])]) s = none) :=
  claim6_roundtrip [("aa_ER@saaho", []), ("POSIX", [])] (by decide)

/-- The Object loop never reads the table: the only consumer, the copy branch
of `generate_object`, is dead. -/
theorem genObjectsLoop_table_irrel (t t' : Table) :
    ∀ objs : List Object, genObjectsLoop t objs = genObjectsLoop t' objs := by
  intro objs
  induction objs with
  | nil => rfl
  | cons o rest ih =>
    simp only [genObjectsLoop, generateObject_eq_pure, ih]

/-- The per-locale loop gives equal output for tables with equal contents. -/
theorem genLocales_congr (t1 t2 : Table) :
    ∀ ls : List (String × List Object), genLocales t1 ls = genLocales t2 ls := by
  intro ls
  induction ls with
  | nil => rfl
  | cons p rest ih =>
    obtain ⟨lang, objs⟩ := p
    simp only [genLocales, genLocaleItems, genObjectsLoop_table_irrel t1 t2, ih]

/-- C10: the full generated output is a function of the table's contents
alone: any two iteration orders of a table with distinct locale names yield
identical output, because both the per-locale pass and the enumeration pass
sort the locales by name first. -/
theorem claim10_output_deterministic (t1 t2 : Table) (hp : t1.Perm t2)
    (hnd : (t1.map Prod.fst).Nodup) : generateAll t1 = generateAll t2 := by
  have hsort : sortByKey Prod.fst t1 = sortByKey Prod.fst t2 :=
    sortByKey_eq_of_perm Prod.fst hp hnd
  have htri : variantTriples t1 = variantTriples t2 := by
    apply sortByKey_eq_of_perm Prod.fst
      (hp.map fun p => (p.1, normalize p.1, descOf p.1 p.2))
    have hmm : (t1.map fun p => (p.1, normalize p.1, descOf p.1 p.2)).map Prod.fst
        = t1.map Prod.fst := by
      rw [List.map_map]
      exact List.map_congr_left fun p _ => rfl
    rw [hmm]
    exact hnd
  unfold generateAll
  rw [hsort, htri, genLocales_congr t1 t2]

/-- C10 witness: two iteration orders of the same two-locale table. -/
theorem claim10_witness :
    generateAll [("b", []), ("a", [])] = generateAll [("a", []), ("b", [])] :=
  claim10_output_deterministic [("b", []), ("a", [])] [("a", []), ("b", [])]
    (by decide) (by decide)

/-- A non-excluded, multi-entry Object of a locale with duplicate-free Object
names is emitted as the module carrying exactly its `generate_object` output,
and looking its name up among the locale's items finds that module. -/
theorem genObjectsLoop_module_content (t : Table) :
    ∀ (objs : List Object) (items : List LocItem) (o : Object) (c : List Chunk),
      o ∈ objs → (objs.map Object.name).Nodup →
      excludedName o.name = false → o.values.length ≠ 1 →
      genObjectsLoop t objs = .ok items → generateObject o t = .ok c →
      moduleContentAt items o.name = some c := by
  intro objs
  induction objs with
  | nil => intro items o c hmem; simp at hmem
  | cons o2 rest ih =>
    intro items o c hmem hnd hexc hlen h hc
    have hndr : (rest.map Object.name).Nodup := (List.nodup_cons.mp hnd).2
    rcases List.mem_cons.mp hmem with rfl | hmem2
    · -- the Object is the head of the loop
      simp only [genObjectsLoop] at h
      rw [if_neg (by simp [hexc])] at h
      split at h
      · next key value hv => exact absurd (by rw [hv]; rfl) hlen
      · obtain ⟨content, hok1, h1⟩ := bind_ok_inv h
        obtain ⟨restItems, hok2, hf⟩ := bind_ok_inv h1
        cases hf
        obtain rfl : content = c := by injection hok1.symm.trans hc
        simp [moduleContentAt]
    · -- the Object sits further down the loop
      have hname2 : o2.name ≠ o.name := by
        intro heq
        have : o2.name ∈ rest.map Object.name := heq ▸ List.mem_map_of_mem Object.name hmem2
        exact (List.nodup_cons.mp hnd).1 this
      simp only [genObjectsLoop] at h
      by_cases he2 : excludedName o2.name = true
      · rw [if_pos he2] at h
        exact ih items o c hmem2 hndr hexc hlen h hc
      · rw [if_neg he2] at h
        split at h
        · split at h
          · split at h
            · split at h
              · obtain ⟨restItems, hok, hf⟩ := bind_ok_inv h
                cases hf
                simp only [moduleContentAt, List.findSome?_cons]
                exact ih restItems o c hmem2 hndr hexc hlen hok hc
              · exact absurd h (by simp)
            · exact absurd h (by simp)
          · exact ih items o c hmem2 hndr hexc hlen h hc
        · obtain ⟨content, hok1, h1⟩ := bind_ok_inv h
          obtain ⟨restItems, hok2, hf⟩ := bind_ok_inv h1
          cases hf
          have hb : (o2.name == o.name) = false := by
            exact beq_eq_false_iff_ne.mpr hname2
          simp only [moduleContentAt, List.findSome?_cons, hb]
          exact ih restItems o c hmem2 hndr hexc hlen hok2 hc

/-- The per-locale pass of the full output maps each table entry, under
duplicate-free normalized names, to the pair found by its normalized
identifier, whose items are that locale's own generation. -/
theorem genLocales_find (t : Table) :
    ∀ (ls : List (String × List Object)) (locs : List (String × List LocItem))
      (x : String) (objsB : List Object),
      (x, objsB) ∈ ls → (ls.map fun p => normalize p.1).Nodup →
      genLocales t ls = .ok locs →
      ∃ items, (locs.find? fun p => p.1 == normalize x) = some (normalize x, items) ∧
        genLocaleItems objsB t = .ok items := by
  intro ls
  induction ls with
  | nil => intro locs x objsB hmem; simp at hmem
  | cons p rest ih =>
    intro locs x objsB hmem hnd h
    obtain ⟨lang0, objs0⟩ := p
    simp only [genLocales] at h
    obtain ⟨items0, hok1, h1⟩ := bind_ok_inv h
    obtain ⟨restLocs, hok2, hf⟩ := bind_ok_inv h1
    cases hf
    rcases List.mem_cons.mp hmem with heq | hmem2
    · obtain ⟨h1, h2⟩ : x = lang0 ∧ objsB = objs0 := by
        injection heq with ha hb; exact ⟨ha, hb⟩
      subst h1; subst h2
      exact ⟨items0, by simp, hok1⟩
    · have hne : normalize lang0 ≠ normalize x := by
        intro heq
        have hxin : normalize x ∈ rest.map fun p => normalize p.1 :=
          List.mem_map.mpr ⟨(x, objsB), hmem2, rfl⟩
        have hlin : normalize lang0 ∈ rest.map fun p => normalize p.1 := by
          rw [heq]; exact hxin
        exact (List.nodup_cons.mp hnd).1 hlin
      obtain ⟨items, hfind, hitems⟩ :=
        ih restLocs x objsB hmem2 (List.nodup_cons.mp hnd).2 hok2
      refine ⟨items, ?_, hitems⟩
      rw [List.find?_cons_of_neg _ (by simp [hne]), hfind]

/-- C5, amended. For a copy-only Object the emitter emits the namespace-level
alias `pub use super::{normalized referenced locale}::{object name};` instead
of inlining (see `claim5_counterexample`, first conjunct, for the alias
shape). Dereferencing that alias in the full generated output — finding the
referenced locale's namespace by its normalized identifier, then the
same-named module inside it — yields exactly the chunks that fully inlining
`generate_object` on the resolved source Object produces, PROVIDED the
referenced locale's same-named Object is itself emitted as a namespace: it
must not be excluded and must have more than one entry (otherwise the alias
dangles while inlining would emit content, refuting the unconditional claim). -/
theorem claim5_alias_equiv_inline (t : Table) (x name : String)
    (objsB : List Object) (o' : Object) (locs : List (String × List LocItem))
    (tris : List (String × String × String)) (c : List Chunk)
    (hmem : (x, objsB) ∈ t)
    (hnorm : (t.map fun p => normalize p.1).Nodup)
    (hnames : (objsB.map Object.name).Nodup)
    (ho : o' ∈ objsB) (hname : o'.name = name)
    (hlen : o'.values.length ≠ 1)
    (hexc : excludedName name = false)
    (hall : generateAll t = .ok (locs, tris))
    (hc : generateObject o' t = .ok c) :
    ((locs.find? fun p => p.1 == normalize x).map fun p =>
        moduleContentAt p.2 name) = some (some c) := by
  simp only [generateAll] at hall
  obtain ⟨locs0, hok, hf⟩ := bind_ok_inv hall
  have hpair : (locs0, variantTriples t) = (locs, tris) := by injection hf
  have hlocs : locs = locs0 := (congrArg Prod.fst hpair).symm
  subst hlocs
  have hmemS : (x, objsB) ∈ sortByKey Prod.fst t :=
    ((sortByKey_perm Prod.fst t).mem_iff).mpr hmem
  have hnormS : ((sortByKey Prod.fst t).map fun p => normalize p.1).Nodup :=
    (((sortByKey_perm Prod.fst t).map fun p => normalize p.1).nodup_iff).mpr hnorm
  obtain ⟨items, hfind, hitems⟩ := genLocales_find t _ locs x objsB hmemS hnormS hok
  rw [hfind]
  have hmemO : o' ∈ sortByKey Object.name objsB :=
    ((sortByKey_perm Object.name objsB).mem_iff).mpr ho
  have hnamesO : ((sortByKey Object.name objsB).map Object.name).Nodup :=
    (((sortByKey_perm Object.name objsB).map Object.name).nodup_iff).mpr hnames
  have hmc : moduleContentAt items o'.name = some c :=
    genObjectsLoop_module_content t _ items o' c hmemO hnamesO (hname ▸ hexc) hlen hitems hc
  rw [hname] at hmc
  simp [hmc]

/-- C5 witness: locale A's LC_TIME is copy-only from B, whose LC_TIME has two
entries and is therefore emitted; dereferencing the alias equals inlining. -/
theorem claim5_witness :
    (([("A", [LocItem.useAlias "B" "LC_TIME"]),
       ("B", [LocItem.module "LC_TIME"
         [Chunk.constStr "DAY" "Mon", Chunk.constInt "WEEK" 7]])].find?
           fun p => p.1 == normalize "B").map fun p =>
        moduleContentAt p.2 "LC_TIME")
      = some (some [Chunk.constStr "DAY" "Mon", Chunk.constInt "WEEK" 7]) :=
  claim5_alias_equiv_inline
    [("B", [⟨"LC_TIME", [("day", [Value.String "Mon"]), ("week", [Value.Integer 7])]⟩]),
     ("A", [⟨"LC_TIME", [("copy", [Value.String "B"])]⟩])]
    "B" "LC_TIME"
    [⟨"LC_TIME", [("day", [Value.String "Mon"]), ("week", [Value.Integer 7])]⟩]
    ⟨"LC_TIME", [("day", [Value.String "Mon"]), ("week", [Value.Integer 7])]⟩
    _ _ [Chunk.constStr "DAY" "Mon", Chunk.constInt "WEEK" 7]
    (by decide) (by decide) (by decide) (by decide) rfl (by decide) (by decide)
    rfl rfl

/-- C5 counterexample: locale A's LC_TIME is copy-only from B, so A emits the
alias (first conjunct, confirming the fast path); but B's same-named Object
has a single non-copy entry, so B emits no LC_TIME module at all (second and
third conjuncts): the alias dangles, while fully inlining the resolved source
Object would emit a scalar constant (fourth conjunct distinct from none) —
the alias output is not referentially equivalent to inlining. -/
theorem claim5_counterexample :
    genLocaleItems [⟨"LC_TIME", [("copy", [Value.String "B"])]⟩]
        [("A", [⟨"LC_TIME", [("copy", [Value.String "B"])]⟩]),
         ("B", [⟨"LC_TIME", [("day", [Value.String "Mon"])]⟩])]
      = .ok [LocItem.useAlias "B" "LC_TIME"] ∧
    genLocaleItems [⟨"LC_TIME", [("day", [Value.String "Mon"])]⟩]
        [("A", [⟨"LC_TIME", [("copy", [Value.String "B"])]⟩]),
         ("B", [⟨"LC_TIME", [("day", [Value.String "Mon"])]⟩])]
      = .ok [] ∧
    moduleContentAt [] "LC_TIME" = none ∧
    generateObject ⟨"LC_TIME", [("day", [Value.String "Mon"])]⟩
        [("A", [⟨"LC_TIME", [("copy", [Value.String "B"])]⟩]),
         ("B", [⟨"LC_TIME", [("day", [Value.String "Mon"])]⟩])]
      = .ok [Chunk.constStr "DAY" "Mon"] ∧
    (some [Chunk.constStr "DAY" "Mon"] : Option (List Chunk)) ≠ none :=
  ⟨rfl, rfl, rfl, rfl, by decide⟩

/-- Sanity: the sanitizer on representative keys, including every rewrite
rule at once. -/
theorem sanitize_samples :
    sanitize "ab_day" = "AB_DAY" ∧ sanitize "t_fmt_ampm" = "T_FMT_AMPM" ∧
    sanitize "copy" = "COPY" ∧ sanitize "a-b=c<d..e2f" = "A_BEQCLTDDOTDOTETWOF" :=
  ⟨rfl, rfl, rfl, rfl⟩

/-- Sanity: the end-to-end sample of spec section 8 — two repeated `day`
entries become the two-row matrix constant `DAY`. -/
theorem repeated_day_matrix :
    generateObject ⟨"LC_TIME", [("day", [Value.String "Mon"]), ("day", [Value.String "Tue"])]⟩ []
      = .ok [Chunk.constMat "DAY" [[Value.String "Mon"], [Value.String "Tue"]]] := rfl

end PRL
